import Mathlib

/-
  Verification of the indextree tree-literal expansion helper
  (src/indextree-macros/src/lib.rs).

  The crate is a compile-time code generator: it parses the literal syntax
      tree!(arena, root => { c1, c2 => { ... }, ... })
  into an `IndexTree` (an arena expression, a root expression and a forest of
  `IndexNode` child specs) and then flattens the forest with an explicit
  stack (`Vec<Either<IndexNode, NestingLevelMarker>>`) into a sequence of
  generated statements: `__last = __node.append_value(#node, __arena);`,
  `__node = __last;` and the ascend block
  (`Arena::get` + `unwrap` + `Node::parent` + `unwrap`).

  Shallow embedding notes.
  * Host-language expressions are atoms carrying only the one piece of static
    information the generated code dispatches on: whether the expression's
    static type is `indextree::NodeId` (`Expr.nodeId`) or some other
    insertable value type (`Expr.value`).
  * Token streams are modelled as lists of token trees: `syn`'s brace group
    is one token (`Tok.brace`), exactly as in proc-macro token streams.
    Parsing an expression consumes a single `Tok.expr` atom; `=>` and `,`
    are their own tokens.  `input.parse::<T>()` consumes input only on
    success, which the pattern matches below reproduce.
  * The arena the generated code runs against is the indextree crate, part of
    this repository but not under src/; its three operations are modelled
    from the spec's collaborator contract (spec section 6).
-/

namespace IndextreeSpec

/-- An opaque host-language expression together with the one bit of static
type information the generated code can dispatch on: whether its static type
is already `indextree::NodeId`. -/
inductive Expr where
  | nodeId (n : Nat)
  | value (v : Nat)
deriving DecidableEq, Repr

/-- Mirror of `struct IndexNode { node: syn::Expr, children: Punctuated<Self, Token![,]> }`. -/
inductive IndexNode where
  | mk (node : Expr) (children : List IndexNode)
deriving Repr

/-- Field accessor for the `node` expression of an `IndexNode`. -/
def IndexNode.node : IndexNode → Expr
  | .mk e _ => e

/-- Field accessor for the `children` forest of an `IndexNode`. -/
def IndexNode.children : IndexNode → List IndexNode
  | .mk _ cs => cs

/-- Mirror of `struct IndexTree { arena: syn::Expr, root_node: syn::Expr,
nodes: Punctuated<IndexNode, Token![,]> }`. -/
structure IndexTree where
  arena : Expr
  root_node : Expr
  nodes : List IndexNode
deriving Repr

/-- One proc-macro token tree: an expression atom, a comma, a fat arrow, or a
braced group (which in a proc-macro token stream is a single nested token). -/
inductive Tok where
  | expr (e : Expr)
  | comma
  | fatArrow
  | brace (ts : List Tok)
deriving Repr

mutual

/-- Mirror of `impl Parse for IndexNode`: parse one expression; if a `=>`
follows it must be followed by a braced group whose contents are parsed with
`parse_terminated(Self::parse, Token![,])`, otherwise the node is a leaf.
The returned remainder is bundled with the facts (suffix, smaller) needed
for termination of the callers. -/
def parseNode : (ts : List Tok) →
    Option (IndexNode × {rest : List Tok // rest.IsSuffix ts ∧ sizeOf rest < sizeOf ts})
  | .expr e :: .fatArrow :: .brace g :: rest =>
    match parseTerminated g with
    | some cs =>
      some (.mk e cs, ⟨rest, ⟨⟨[.expr e, .fatArrow, .brace g], rfl⟩, by simp; omega⟩⟩)
    | none => none
  | .expr _ :: .fatArrow :: _ => none
  | .expr e :: rest =>
    some (.mk e [], ⟨rest, ⟨⟨[.expr e], rfl⟩, by simp⟩⟩)
  | _ => none
termination_by ts => 2 * sizeOf ts
decreasing_by
  all_goals simp
  all_goals omega

/-- Mirror of `syn`'s `parse_terminated(IndexNode::parse, Token![,])` on the
contents of a braced group: a possibly empty comma-separated list of child
specs, tolerating one trailing comma, consuming the whole group. -/
def parseTerminated : List Tok → Option (List IndexNode)
  | [] => some []
  | t :: ts =>
    match parseNode (t :: ts) with
    | none => none
    | some (n, ⟨rest, h⟩) =>
      match rest, h with
      | [], _ => some [n]
      | [.comma], _ => some [n]
      | .comma :: t2 :: ts2, h => (parseTerminated (t2 :: ts2)).map (n :: ·)
      | _, _ => none
termination_by ts => 2 * sizeOf ts + 1
decreasing_by
  · simp
  · obtain ⟨h1, h2⟩ := h
    simp at h2 ⊢
    omega

end

/-- Projection of `parseNode` that forgets the termination bookkeeping. -/
def parseNodeR (ts : List Tok) : Option (IndexNode × List Tok) :=
  (parseNode ts).map (fun p => (p.1, p.2.1))

/-- Mirror of `let _ = input.parse::<Token![,]>();`: consume one optional
trailing comma, ignoring failure (which consumes nothing). -/
def consumeOptComma : List Tok → List Tok
  | .comma :: r => r
  | r => r

/-- Mirror of `impl Parse for IndexTree`: arena expression, required comma,
root expression, then an optional `=> { ... }` forest (a `=>` not followed by
a braced group is an error), then an optional trailing comma. -/
def parseIndexTree : List Tok → Option (IndexTree × List Tok)
  | .expr arena :: .comma :: .expr root :: rest =>
    match rest with
    | .fatArrow :: .brace g :: rest2 =>
      match parseTerminated g with
      | some ns => some (⟨arena, root, ns⟩, consumeOptComma rest2)
      | none => none
    | .fatArrow :: _ => none
    | _ => some (⟨arena, root, []⟩, consumeOptComma rest)
  | _ => none

/-- Mirror of `parse_macro_input!(input as IndexTree)`: the whole token
stream must be consumed, otherwise the expansion fails. -/
def parseTree (ts : List Tok) : Option IndexTree :=
  match parseIndexTree ts with
  | some (t, []) => some t
  | _ => none

/-- One generated statement of the expansion loop's `action_buffer`:
`append e` is `__last = __node.append_value(#node, __arena);`,
`descend` is `__node = __last;`, and `ascend` is the block
`__temp = Arena::get(__arena, __node); __temp = Option::unwrap(__temp);
__temp = Node::parent(__temp); __temp = Option::unwrap(__temp);
__node = __temp;`. -/
inductive Instr where
  | append (e : Expr)
  | descend
  | ascend
deriving DecidableEq, Repr

/-- How the seeded code resolves `__root_node` from `#root_node` via the
autoref-specialization dispatch: when the expression's static type is
`indextree::NodeId` the `__NodeIdToNodeId` impl takes the id itself
(`ManuallyDrop::take`, no allocation); otherwise the `__ToNodeId` impl calls
`Arena::new_node` inserting the value fresh. -/
inductive RootInit where
  | reuse (n : Nat)
  | newNode (e : Expr)
deriving DecidableEq, Repr

/-- The static-type based method resolution of
`(&mut __root_node).__to_node_id(__arena)`: the by-value candidate
`__NodeIdToNodeId for __Wrapping<NodeId>` wins when the expression is a node
id; otherwise the autoref fallback `__ToNodeId for &mut __Wrapping<T>`. -/
def rootDispatch : Expr → RootInit
  | .nodeId n => .reuse n
  | .value v => .newNode (.value v)

/-- Mirror of `Either<IndexNode, NestingLevelMarker>`: the work-stack items
of the flattening loop. -/
inductive StackItem where
  | left (n : IndexNode)
  | right
deriving Repr

/-- Weight of a forest of child specs: two per spec plus the weight of its
children; used as the termination measure of the flattening loop. -/
def forestWeight : List IndexNode → Nat
  | [] => 0
  | .mk _ cs :: ns => 2 + forestWeight cs + forestWeight ns

/-- Termination measure for the flattening loop: markers weigh one, child
specs weigh two plus their children's weight. -/
def stackWeight : List StackItem → Nat
  | [] => 0
  | .right :: r => 1 + stackWeight r
  | .left (.mk _ cs) :: r => 2 + forestWeight cs + stackWeight r

/-- Mirror of the `while let Some(item) = stack.pop()` loop of `tree`.  The
Rust stack is a `Vec` popped and pushed at its end; here the list head is the
stack top, so the source's two `.rev()` calls (on the initial forest and on
each pushed `children`) are already accounted for: popping the reversed
vector yields the list in declaration order.  Popping a marker emits an
ascend; popping a child spec emits its append, and when it has children the
loop pushes a marker, emits a descend (`__node = __last;`) and pushes the
children. -/
def flattenLoop : List StackItem → List Instr
  | [] => []
  | .right :: rest => .ascend :: flattenLoop rest
  | .left (.mk e cs) :: rest =>
    .append e ::
      if cs.isEmpty then flattenLoop rest
      else .descend :: flattenLoop (cs.map .left ++ .right :: rest)
termination_by s => stackWeight s
decreasing_by
  · simp [stackWeight]
  · simp [stackWeight]
  · have key : ∀ (ds : List IndexNode) (r : List StackItem),
        stackWeight (ds.map .left ++ r) = forestWeight ds + stackWeight r := by
      intro ds
      induction ds with
      | nil => intro r; simp [stackWeight, forestWeight]
      | cons d ds2 ih =>
        intro r
        cases d with
        | mk e2 cs2 => simp [stackWeight, forestWeight, ih]; omega
    simp [stackWeight, key]
    omega

/-- The expansion result of one `tree!` invocation: the evaluated arena
expression, the root resolution, and the flattened instruction sequence; the
generated block ends by yielding `__root_node`. -/
structure Program where
  arena : Expr
  root_init : RootInit
  instrs : List Instr
deriving DecidableEq, Repr

/-- Mirror of the body of `pub fn tree`: parse result in, seeded root
dispatch plus the flattened action buffer out. -/
def tree (t : IndexTree) : Program :=
  ⟨t.arena, rootDispatch t.root_node, flattenLoop (t.nodes.map .left)⟩

/-- The whole proc macro: parse, then expand; a parse failure aborts the
expansion with nothing emitted. -/
def expandTokens (ts : List Tok) : Option Program :=
  (parseTree ts).map tree

/-- Recursive reference form of the emission: for each child spec an append,
and when it has children a descend, the children's emission, and one ascend;
proved equal to the stack loop below. -/
def emitForest : List IndexNode → List Instr
  | [] => []
  | .mk e cs :: ns =>
    .append e ::
      (if cs.isEmpty then emitForest ns
       else .descend :: (emitForest cs ++ .ascend :: emitForest ns))

/-- The part of one child spec's emission that follows its append
instruction. -/
def emitSub : IndexNode → List Instr
  | .mk _ cs => if cs.isEmpty then [] else .descend :: (emitForest cs ++ [.ascend])

/-- Pre-order listing of the value expressions of a forest: each spec's
expression before its children's, siblings left to right. -/
def preorderForest : List IndexNode → List Expr
  | [] => []
  | .mk e cs :: ns => e :: (preorderForest cs ++ preorderForest ns)

/-- Total number of `ChildSpec` (`IndexNode`) entries in a forest, the root
excluded. -/
def specCountForest : List IndexNode → Nat
  | [] => 0
  | .mk _ cs :: ns => 1 + specCountForest cs + specCountForest ns

/-- Number of `ChildSpec` entries of a forest whose `children` sequence is
non-empty. -/
def neCountForest : List IndexNode → Nat
  | [] => 0
  | .mk _ cs :: ns => (if cs.isEmpty then 0 else 1) + neCountForest cs + neCountForest ns

/-- Recognizer for append instructions. -/
def isAppend : Instr → Bool
  | .append _ => true
  | _ => false

/-- Recognizer for descend instructions. -/
def isDescend : Instr → Bool
  | .descend => true
  | _ => false

/-- Recognizer for ascend instructions. -/
def isAscend : Instr → Bool
  | .ascend => true
  | _ => false

/-- The expressions of the append instructions of an emitted sequence, in
emission order. -/
def appendExprs (l : List Instr) : List Expr :=
  l.filterMap fun i => match i with | .append e => some e | _ => none

/-- Number of append instructions in an emitted sequence. -/
def countAppend (l : List Instr) : Nat := l.countP isAppend

/-- Number of descend instructions in an emitted sequence. -/
def countDescend (l : List Instr) : Nat := l.countP isDescend

/-- Number of ascend instructions in an emitted sequence. -/
def countAscend (l : List Instr) : Nat := l.countP isAscend

/-- Modelled from the spec: one stored node of the external arena
collaborator (spec section 6), a record holding the inserted value and the
node's recorded parent identifier, empty for a root.  The indextree crate
providing `Arena`/`Node` is not under src/. -/
structure ArenaNode where
  payload : Expr
  parent : Option Nat
deriving DecidableEq, Repr

/-- Runtime state of the generated block: the arena (identifiers are list
indices), the current node `__node`, the last appended node `__last` (none
before its first assignment), and `__root_node`. -/
structure ExecState where
  arena : List ArenaNode
  node : Nat
  last : Option Nat
  root : Nat
deriving DecidableEq, Repr

/-- Modelled from the spec: resolving `__root_node` against the arena
collaborator (spec section 6): reusing a node identifier touches nothing,
`Arena::new_node` inserts a bare value with no parent and returns its fresh
identifier. -/
def execRoot (a : List ArenaNode) : RootInit → List ArenaNode × Nat
  | .reuse n => (a, n)
  | .newNode e => (a ++ [⟨e, none⟩], a.length)

/-- Modelled from the spec: one generated statement against the arena
collaborator (spec section 6).  `append_value` appends a fresh node whose
parent is the current node and records its identifier in `__last`;
`__node = __last;` requires `__last` to have been assigned; the ascend block
returns none exactly when one of its two `unwrap` calls would panic
(`Arena::get` missing the node, or `Node::parent` empty). -/
def execInstr (s : ExecState) : Instr → Option ExecState
  | .append e => some ⟨s.arena ++ [⟨e, some s.node⟩], s.node, some s.arena.length, s.root⟩
  | .descend =>
    match s.last with
    | some l => some ⟨s.arena, l, s.last, s.root⟩
    | none => none
  | .ascend =>
    match s.arena[s.node]? with
    | none => none
    | some nd =>
      match nd.parent with
      | none => none
      | some p => some ⟨s.arena, p, s.last, s.root⟩

/-- Run a generated instruction sequence, stopping at the first failure. -/
def execInstrs : ExecState → List Instr → Option ExecState
  | s, [] => some s
  | s, i :: l =>
    match execInstr s i with
    | none => none
    | some s2 => execInstrs s2 l

/-- Run a whole expanded program from a given initial arena: seed the root
resolution, start with `__node = __root_node`, `__last` unassigned, and run
the flattened action buffer; the generated block then yields `__root_node`,
available as the `root` field of the final state. -/
def execProgram (a : List ArenaNode) (p : Program) : Option ExecState :=
  execInstrs ⟨(execRoot a p.root_init).1, (execRoot a p.root_init).2, none,
    (execRoot a p.root_init).2⟩ p.instrs

/-- Number of fresh nodes the root resolution allocates: none when the root
expression is already a node identifier, one otherwise. -/
def rootAllocCount : Expr → Nat
  | .nodeId _ => 0
  | .value _ => 1

/-- The expression whose evaluation produced a root resolution; evaluating
`#root_node` happens exactly once, inside `ManuallyDrop::new(#root_node)`. -/
def rootInitExpr : RootInit → Expr
  | .reuse n => .nodeId n
  | .newNode e => e

/-- The host-language expressions the generated block evaluates, in
evaluation order: first `#arena` (`let mut __arena = #arena;`), then
`#root_node`, then each `#node` of an append statement in emission order. -/
def evalOrder (p : Program) : List Expr :=
  p.arena :: rootInitExpr p.root_init :: appendExprs p.instrs

/-- Static-type test used by the claimed dispatch rule: true when the
expression is an insertable value, false when it is already a node id. -/
def isValueTyped : Expr → Bool
  | .value _ => true
  | .nodeId _ => false

/-- Modelled from the spec's claim wording, for comparison with the code:
the number of fresh allocations the expansion would perform if the
insert-vs-reattach dispatch governed the root and every child spec, that is,
if every node-identifier expression in the literal were reattached without
allocation and only value-typed expressions were inserted fresh. -/
def claimAllocCount (t : IndexTree) : Nat :=
  ((t.root_node :: preorderForest t.nodes).filter isValueTyped).length

/-- Head test: does the token list start with a braced group. -/
def headIsBrace : List Tok → Bool
  | .brace _ :: _ => true
  | _ => false

/-- Head test: does the token list start with a fat arrow. -/
def headIsFatArrow : List Tok → Bool
  | .fatArrow :: _ => true
  | _ => false

-- Theorems.

theorem emitForest_cons (n : IndexNode) (ns : List IndexNode) :
    emitForest (n :: ns) = (.append n.node :: emitSub n) ++ emitForest ns := by
  cases n with
  | mk e cs =>
    by_cases hc : cs.isEmpty <;>
      simp [emitForest, emitSub, IndexNode.node, hc]

theorem emitForest_append (xs ys : List IndexNode) :
    emitForest (xs ++ ys) = emitForest xs ++ emitForest ys := by
  induction xs with
  | nil => simp [emitForest]
  | cons n r ih =>
    rw [List.cons_append, emitForest_cons, emitForest_cons, ih]
    simp

theorem flattenLoop_eq (f : List IndexNode) :
    ∀ rest, flattenLoop (f.map .left ++ rest) = emitForest f ++ flattenLoop rest := by
  intro rest
  match f with
  | [] => simp [emitForest]
  | .mk e cs :: ns =>
    have h1 := flattenLoop_eq ns rest
    by_cases hc : cs.isEmpty
    · simp [flattenLoop, emitForest, hc, h1]
    · have h2 := flattenLoop_eq cs (.right :: (ns.map .left ++ rest))
      simp [flattenLoop, emitForest, hc, h1, h2]
termination_by sizeOf f
decreasing_by
  all_goals simp
  all_goals omega

theorem tree_instrs (t : IndexTree) : (tree t).instrs = emitForest t.nodes := by
  have h := flattenLoop_eq t.nodes []
  simp [flattenLoop] at h
  simpa [tree] using h

theorem preorderForest_append (xs ys : List IndexNode) :
    preorderForest (xs ++ ys) = preorderForest xs ++ preorderForest ys := by
  induction xs with
  | nil => simp [preorderForest]
  | cons n r ih =>
    cases n with
    | mk e cs => simp [preorderForest, ih]

theorem appendExprs_append (l1 l2 : List Instr) :
    appendExprs (l1 ++ l2) = appendExprs l1 ++ appendExprs l2 := by
  simp [appendExprs]

theorem appendExprs_emitForest (f : List IndexNode) :
    appendExprs (emitForest f) = preorderForest f := by
  match f with
  | [] => simp [emitForest, preorderForest, appendExprs]
  | .mk e cs :: ns =>
    have h1 := appendExprs_emitForest cs
    have h2 := appendExprs_emitForest ns
    by_cases hc : cs.isEmpty
    · have hc2 : cs = [] := List.isEmpty_iff.mp hc
      subst hc2
      simp [emitForest, preorderForest, appendExprs] at h2 ⊢
      exact h2
    · simp [emitForest, preorderForest, hc, appendExprs] at h1 h2 ⊢
      simp [h1, h2]
termination_by sizeOf f
decreasing_by
  all_goals simp
  all_goals omega

theorem counts_emitForest (f : List IndexNode) :
    countAppend (emitForest f) = specCountForest f ∧
    countDescend (emitForest f) = neCountForest f ∧
    countAscend (emitForest f) = neCountForest f := by
  match f with
  | [] => simp [emitForest, specCountForest, neCountForest,
      countAppend, countDescend, countAscend]
  | .mk e cs :: ns =>
    obtain ⟨a1, d1, s1⟩ := counts_emitForest cs
    obtain ⟨a2, d2, s2⟩ := counts_emitForest ns
    by_cases hc : cs.isEmpty
    · have hc2 : cs = [] := List.isEmpty_iff.mp hc
      subst hc2
      simp [emitForest, specCountForest, neCountForest, countAppend,
        countDescend, countAscend, isAppend, isDescend, isAscend,
        List.countP_cons] at a2 d2 s2 ⊢
      omega
    · simp [emitForest, specCountForest, neCountForest, hc, countAppend,
        countDescend, countAscend, isAppend, isDescend, isAscend,
        List.countP_cons, List.countP_append] at a1 d1 s1 a2 d2 s2 ⊢
      omega
termination_by sizeOf f
decreasing_by
  all_goals simp
  all_goals omega

theorem execInstrs_append (l1 l2 : List Instr) :
    ∀ s, execInstrs s (l1 ++ l2) =
      match execInstrs s l1 with
      | none => none
      | some s2 => execInstrs s2 l2 := by
  induction l1 with
  | nil => intro s; simp [execInstrs]
  | cons i r ih =>
    intro s
    simp only [List.cons_append, execInstrs]
    cases execInstr s i with
    | none => simp
    | some s2 => simp [ih s2]

/-- Central lemma: running the emission of a forest from any state succeeds,
extends the arena by exactly one fresh node per child spec, and preserves
the current node and the root. -/
theorem exec_emitForest (f : List IndexNode) :
    ∀ s : ExecState, ∃ ext lst,
      execInstrs s (emitForest f) = some ⟨s.arena ++ ext, s.node, lst, s.root⟩ ∧
      ext.length = specCountForest f := by
  intro s
  match f with
  | [] =>
    refine ⟨[], s.last, ?_, ?_⟩
    · simp [emitForest, execInstrs]
    · simp [specCountForest]
  | .mk e cs :: ns =>
    by_cases hc : cs.isEmpty
    · have hc2 : cs = [] := List.isEmpty_iff.mp hc
      subst hc2
      obtain ⟨ext2, lst2, h2, hl2⟩ := exec_emitForest ns
        ⟨s.arena ++ [⟨e, some s.node⟩], s.node, some s.arena.length, s.root⟩
      refine ⟨⟨e, some s.node⟩ :: ext2, lst2, ?_, ?_⟩
      · simp only [emitForest, List.isEmpty_nil, if_true, execInstrs, execInstr]
        rw [h2]
        simp
      · simp [specCountForest, hl2]
        omega
    · obtain ⟨ext3, lst3, h3, hl3⟩ := exec_emitForest cs
        ⟨s.arena ++ [⟨e, some s.node⟩], s.arena.length, some s.arena.length, s.root⟩
      obtain ⟨ext4, lst4, h4, hl4⟩ := exec_emitForest ns
        ⟨(s.arena ++ [⟨e, some s.node⟩]) ++ ext3, s.node, lst3, s.root⟩
      refine ⟨⟨e, some s.node⟩ :: (ext3 ++ ext4), lst4, ?_, ?_⟩
      · simp only [emitForest, hc, if_false, Bool.false_eq_true, execInstrs, execInstr]
        rw [execInstrs_append]
        rw [h3]
        have hget : ((s.arena ++ [⟨e, some s.node⟩]) ++ ext3)[s.arena.length]? =
            some ⟨e, some s.node⟩ := by
          rw [List.append_assoc, List.getElem?_append_right (Nat.le_refl _)]
          simp
        simp only [execInstrs, execInstr, hget]
        rw [h4]
        simp
      · simp [specCountForest, hc, hl3, hl4]
        omega
termination_by sizeOf f
decreasing_by
  all_goals simp
  all_goals omega

/-- Running a whole expanded `tree!` program from any initial arena succeeds,
returns to the root, and allocates exactly the dispatch-dependent root node
plus one node per child spec. -/
theorem exec_tree (t : IndexTree) (a : List ArenaNode) :
    ∃ s, execProgram a (tree t) = some s ∧ s.node = s.root ∧
      s.arena.length = a.length + rootAllocCount t.root_node + specCountForest t.nodes := by
  have hi := tree_instrs t
  cases ht : t.root_node with
  | nodeId n =>
    obtain ⟨ext, lst, h, hl⟩ := exec_emitForest t.nodes ⟨a, n, none, n⟩
    refine ⟨⟨a ++ ext, n, lst, n⟩, ?_, rfl, ?_⟩
    · have hr : (tree t).root_init = RootInit.reuse n := by
        simp [tree, ht, rootDispatch]
      simp only [execProgram, hi, hr, execRoot]
      exact h
    · simp [rootAllocCount, hl]
  | value v =>
    obtain ⟨ext, lst, h, hl⟩ := exec_emitForest t.nodes
      ⟨a ++ [⟨.value v, none⟩], a.length, none, a.length⟩
    refine ⟨⟨(a ++ [⟨.value v, none⟩]) ++ ext, a.length, lst, a.length⟩, ?_, rfl, ?_⟩
    · have hr : (tree t).root_init = RootInit.newNode (.value v) := by
        simp [tree, ht, rootDispatch]
      simp only [execProgram, hi, hr, execRoot]
      exact h
    · simp [rootAllocCount, hl]
      omega

/-- Appending a comma to the unconsumed remainder of a successful child-spec
parse leaves the parse result unchanged and the comma unconsumed. -/
theorem parseNodeR_comma_ext (ts : List Tok) (n : IndexNode) (rest : List Tok)
    (h : parseNodeR ts = some (n, rest)) :
    parseNodeR (ts ++ [.comma]) = some (n, rest ++ [.comma]) := by
  match ts with
  | [] => simp [parseNodeR, parseNode] at h
  | .expr e :: .fatArrow :: .brace g :: r =>
    cases hg : parseTerminated g with
    | none => simp [parseNodeR, parseNode, hg] at h
    | some cs =>
      simp [parseNodeR, parseNode, hg] at h ⊢
      exact ⟨h.1, h.2⟩
  | .expr e :: .fatArrow :: .expr e2 :: r => simp [parseNodeR, parseNode] at h
  | .expr e :: .fatArrow :: .comma :: r => simp [parseNodeR, parseNode] at h
  | .expr e :: .fatArrow :: .fatArrow :: r => simp [parseNodeR, parseNode] at h
  | [.expr e, .fatArrow] => simp [parseNodeR, parseNode] at h
  | .expr e :: .expr e2 :: r =>
    simp [parseNodeR, parseNode] at h ⊢
    obtain ⟨h1, h2⟩ := h
    subst h2
    exact ⟨h1, by simp⟩
  | .expr e :: .comma :: r =>
    simp [parseNodeR, parseNode] at h ⊢
    obtain ⟨h1, h2⟩ := h
    subst h2
    exact ⟨h1, by simp⟩
  | .expr e :: .brace g :: r =>
    simp [parseNodeR, parseNode] at h ⊢
    obtain ⟨h1, h2⟩ := h
    subst h2
    exact ⟨h1, by simp⟩
  | [.expr e] =>
    simp [parseNodeR, parseNode] at h ⊢
    exact ⟨h.1, h.2⟩
  | .comma :: r => simp [parseNodeR, parseNode] at h
  | .fatArrow :: r => simp [parseNodeR, parseNode] at h
  | .brace g :: r => simp [parseNodeR, parseNode] at h

/-- Trailing-comma tolerance of `parse_terminated`: appending one comma
after the last entry of a successfully parsed children list (one that does
not already end in a comma) parses to the identical list of child specs. -/
theorem parseTerminated_comma_ext (g : List Tok) (ns : List IndexNode)
    (h : parseTerminated g = some ns) (hne : g ≠ [])
    (hlast : g.getLast? ≠ some Tok.comma) :
    parseTerminated (g ++ [Tok.comma]) = some ns := by
  match g with
  | [] => exact absurd rfl hne
  | t :: ts =>
    cases hp : parseNode (t :: ts) with
    | none =>
      rw [parseTerminated.eq_def] at h
      simp only [hp] at h
      exact Option.noConfusion h
    | some p =>
      obtain ⟨n, rest, hsuf, hsz⟩ := p
      have hpR : parseNodeR (t :: ts) = some (n, rest) := by
        simp [parseNodeR, hp]
      have hext := parseNodeR_comma_ext (t :: ts) n rest hpR
      cases hq : parseNode (t :: (ts ++ [Tok.comma])) with
      | none =>
        rw [List.cons_append] at hext
        simp [parseNodeR, hq] at hext
      | some q =>
        obtain ⟨n2, rest2, hsuf2, hsz2⟩ := q
        rw [List.cons_append] at hext
        simp only [parseNodeR, hq, Option.map_some] at hext
        have he1 : n2 = n := by
          have := congrArg (fun x => (Option.map Prod.fst x)) hext
          simpa using this
        have he2 : rest2 = rest ++ [Tok.comma] := by
          have := congrArg (fun x => (Option.map Prod.snd x)) hext
          simpa using this
        subst he1
        subst he2
        cases rest with
        | nil =>
          rw [parseTerminated.eq_def] at h
          simp only [hp] at h
          rw [List.cons_append, parseTerminated.eq_def]
          simp only [hq]
          simpa using h
        | cons t3 rest3 =>
          cases t3 with
          | expr e2 =>
            rw [parseTerminated.eq_def] at h
            simp only [hp] at h
            exact Option.noConfusion h
          | fatArrow =>
            rw [parseTerminated.eq_def] at h
            simp only [hp] at h
            exact Option.noConfusion h
          | brace g2 =>
            rw [parseTerminated.eq_def] at h
            simp only [hp] at h
            exact Option.noConfusion h
          | comma =>
            cases rest3 with
            | nil =>
              obtain ⟨pre, hpre⟩ := hsuf
              rw [← hpre, List.getLast?_concat] at hlast
              exact absurd rfl hlast
            | cons t2 ts2 =>
              rw [parseTerminated.eq_def] at h
              simp only [hp] at h
              cases hr : parseTerminated (t2 :: ts2) with
              | none => simp [hr] at h
              | some l =>
                simp only [hr, Option.map_some] at h
                have hlast2 : (t2 :: ts2).getLast? ≠ some Tok.comma := by
                  obtain ⟨pre, hpre⟩ := hsuf
                  rw [← hpre, List.getLast?_append, List.getLast?_cons_cons] at hlast
                  have hz : ∃ z, (t2 :: ts2).getLast? = some z := by
                    cases hzz : (t2 :: ts2).getLast? with
                    | none => exact absurd (List.getLast?_eq_none_iff.mp hzz) (by simp)
                    | some z => exact ⟨z, rfl⟩
                  obtain ⟨z, hz⟩ := hz
                  rw [hz] at hlast ⊢
                  simpa [Option.or] using hlast
                have hrec := parseTerminated_comma_ext (t2 :: ts2) l hr (by simp) hlast2
                rw [List.cons_append, parseTerminated.eq_def]
                simp only [hq, List.cons_append]
                rw [List.cons_append] at hrec
                simp only [hrec, Option.map_some]
                rw [← h]
termination_by sizeOf g
decreasing_by
  simp at hsz ⊢
  omega

-- Claim theorems.

/-- C1, counterexample: the claim says the insert-vs-reattach dispatch is
applied to every node expression, in particular that a child expression
whose static type is a node identifier is reattached rather than inserted as
a new value.  On the literal `tree!(a, v1 => { id7 })` whose only child is
the node identifier `id7`, the generated code emits a plain
`append_value` for the child (no dispatch), and running it allocates two
fresh nodes where the claimed dispatch-everywhere rule predicts one: the
node-identifier child is inserted as a new value, not reattached. -/
theorem claim_C1_counterexample :
    (tree ⟨.value 0, .value 1, [.mk (.nodeId 7) []]⟩).instrs = [.append (.nodeId 7)] ∧
    (execProgram [] (tree ⟨.value 0, .value 1, [.mk (.nodeId 7) []]⟩)).map
        (fun s => s.arena.length) = some 2 ∧
    claimAllocCount ⟨.value 0, .value 1, [.mk (.nodeId 7) []]⟩ = 1 := by
  refine ⟨?_, ?_, ?_⟩
  · simp [tree, flattenLoop]
  · simp [execProgram, tree, rootDispatch, execRoot, flattenLoop, execInstrs, execInstr]
  · simp [claimAllocCount, preorderForest, isValueTyped]

/-- C1, amended: the insert-vs-reattach dispatch is applied only to the root
expression (the seeded code resolves `__root_node` with the autoref
specialization), while every child spec is always inserted as a fresh value
with `append_value`, whatever its static type: executing the expansion
allocates the dispatch-dependent zero or one node for the root plus exactly
one fresh node per child spec, and the appended expressions are exactly the
pre-order child expressions. -/
theorem claim_C1_amended (t : IndexTree) (a : List ArenaNode) :
    (tree t).root_init = rootDispatch t.root_node ∧
    appendExprs (tree t).instrs = preorderForest t.nodes ∧
    ∃ s, execProgram a (tree t) = some s ∧
      s.arena.length = a.length + rootAllocCount t.root_node + specCountForest t.nodes := by
  refine ⟨rfl, ?_, ?_⟩
  · rw [tree_instrs]
    exact appendExprs_emitForest t.nodes
  · obtain ⟨s, hs, _, hl⟩ := exec_tree t a
    exact ⟨s, hs, hl⟩

/-- C2: the literal `tree!(a, 1 => { 2, 3 => { 4 } })` expands to the
instruction sequence: insert 1 as root (the seeded `newNode` resolution),
append 2 to the current node, append 3, descend into the node of 3, append
4, ascend back, and the block yields the root identifier; executing it on an
empty arena builds exactly that tree (2 and 3 children of 1's node, 4 a
child of 3's node) and ends back at the root identifier 0 obtained from
inserting 1. -/
theorem claim_C2 :
    expandTokens [.expr (.value 10), .comma, .expr (.value 1), .fatArrow,
        .brace [.expr (.value 2), .comma, .expr (.value 3), .fatArrow,
          .brace [.expr (.value 4)]]] =
      some ⟨.value 10, .newNode (.value 1),
        [.append (.value 2), .append (.value 3), .descend, .append (.value 4), .ascend]⟩ ∧
    execProgram [] ⟨.value 10, .newNode (.value 1),
        [.append (.value 2), .append (.value 3), .descend, .append (.value 4), .ascend]⟩ =
      some ⟨[⟨.value 1, none⟩, ⟨.value 2, some 0⟩, ⟨.value 3, some 0⟩, ⟨.value 4, some 2⟩],
        0, some 3, 0⟩ := by
  constructor
  · simp [expandTokens, parseTree, parseIndexTree, parseTerminated, parseNode,
      consumeOptComma, tree, rootDispatch, flattenLoop]
  · simp [execProgram, execRoot, execInstrs, execInstr]

/-- C3: for every tree literal, the flattening pass emits exactly one append
instruction per child spec of the parsed forest (the root excluded) and
exactly one ascend instruction per child spec with a non-empty children
sequence. -/
theorem claim_C3 (t : IndexTree) :
    countAppend (tree t).instrs = specCountForest t.nodes ∧
    countAscend (tree t).instrs = neCountForest t.nodes := by
  have h := counts_emitForest t.nodes
  rw [tree_instrs]
  exact ⟨h.1, h.2.2⟩

/-- C4: declaration order is preserved: the loop's emission of any forest
containing the sibling specs A before B is the emission of the earlier
siblings, then A's append followed by A's subtree code, then the middle
siblings, then B's append followed by B's subtree code, then the rest, so
the instruction appending A is emitted strictly before the instruction
appending B; and the expansion's instruction list is exactly this recursive
emission. -/
theorem claim_C4 :
    (∀ t : IndexTree, (tree t).instrs = emitForest t.nodes) ∧
    ∀ (pre : List IndexNode) (A : IndexNode) (mid : List IndexNode) (B : IndexNode)
      (post : List IndexNode),
      emitForest (pre ++ A :: (mid ++ B :: post)) =
        emitForest pre ++ (.append A.node :: emitSub A) ++
          (emitForest mid ++ (.append B.node :: emitSub B) ++ emitForest post) := by
  refine ⟨tree_instrs, ?_⟩
  intro pre A mid B post
  rw [emitForest_append, emitForest_cons, emitForest_append, emitForest_cons]
  simp

/-- C5: the traversal always returns to depth zero: the emitted sequence has
exactly as many descend instructions as ascend instructions (the loop, a
total function, consumes its work stack to emptiness by construction), and
running any expanded program leaves the current node equal to the root
identifier it started from. -/
theorem claim_C5 (t : IndexTree) (a : List ArenaNode) :
    countDescend (tree t).instrs = countAscend (tree t).instrs ∧
    ∃ s, execProgram a (tree t) = some s ∧ s.node = s.root := by
  constructor
  · have h := counts_emitForest t.nodes
    rw [tree_instrs, h.2.1, h.2.2]
  · obtain ⟨s, hs, hn, _⟩ := exec_tree t a
    exact ⟨s, hs, hn⟩

/-- C6: executing any expanded program never hits a failure branch: in the
semantics, the ascend block returns none exactly when one of its two
`unwrap` calls (arena lookup of the current node, parent lookup) would
panic, and whole-program execution is always `some`, so whenever an ascend
executes the current node exists in the arena and has a recorded parent; the
fatal no-parent path is unreachable. -/
theorem claim_C6 (t : IndexTree) (a : List ArenaNode) :
    (execProgram a (tree t)).isSome = true := by
  obtain ⟨s, hs, _, _⟩ := exec_tree t a
  simp [hs]

/-- C7: `tree!(arena, root)` and `tree!(arena, root => {})` both parse to
the tree literal with an empty forest, and the expansions of the two token
streams are the identical program: the seeded root insert-or-reattach, an
empty instruction sequence (no append, no ascend), yielding the root
identifier. -/
theorem claim_C7 (a r : Expr) :
    parseTree [.expr a, .comma, .expr r] = some ⟨a, r, []⟩ ∧
    parseTree [.expr a, .comma, .expr r, .fatArrow, .brace []] = some ⟨a, r, []⟩ ∧
    expandTokens [.expr a, .comma, .expr r] =
      expandTokens [.expr a, .comma, .expr r, .fatArrow, .brace []] ∧
    expandTokens [.expr a, .comma, .expr r] = some ⟨a, rootDispatch r, []⟩ := by
  refine ⟨?_, ?_, ?_, ?_⟩ <;>
    simp [parseTree, parseIndexTree, parseTerminated, consumeOptComma,
      expandTokens, tree, flattenLoop]

/-- C8: trailing commas are tolerated at every level: after the root
expression of a forest-less literal, after the braced forest of the
top-level, and after the last entry of any children list (one that does not
already end in a comma, the braced top-level forest list included), and the
parse result is the identical tree literal. -/
theorem claim_C8 :
    (∀ a r : Expr, parseTree [.expr a, .comma, .expr r, .comma] =
        parseTree [.expr a, .comma, .expr r]) ∧
    (∀ (a r : Expr) (g : List Tok),
        parseTree [.expr a, .comma, .expr r, .fatArrow, .brace g, .comma] =
        parseTree [.expr a, .comma, .expr r, .fatArrow, .brace g]) ∧
    (∀ (g : List Tok) (ns : List IndexNode), parseTerminated g = some ns →
        g ≠ [] → g.getLast? ≠ some Tok.comma →
        parseTerminated (g ++ [Tok.comma]) = some ns) := by
  refine ⟨?_, ?_, parseTerminated_comma_ext⟩
  · intro a r
    simp [parseTree, parseIndexTree, consumeOptComma]
  · intro a r g
    cases hg : parseTerminated g <;>
      simp [parseTree, parseIndexTree, hg, consumeOptComma]

/-- C8, witness: the children list `{ 2 }` parses, and with a trailing comma
`{ 2, }` parses to the identical list. -/
theorem claim_C8_witness :
    parseTerminated [Tok.expr (.value 2)] = some [IndexNode.mk (.value 2) []] ∧
    parseTerminated [Tok.expr (.value 2), Tok.comma] = some [IndexNode.mk (.value 2) []] := by
  refine ⟨?_, ?_⟩
  · simp [parseTerminated, parseNode]
  · exact claim_C8.2.2 [Tok.expr (.value 2)] [IndexNode.mk (.value 2) []]
      (by simp [parseTerminated, parseNode]) (by simp) (by simp)

/-- C9: parsing is all-or-nothing with leaves by omission: a child-spec
expression followed by `=>` but not by a braced group fails to parse; when
the top-level parse fails the macro emits nothing at all; and an expression
not followed by `=>` parses as a leaf with no children, consuming nothing
further. -/
theorem claim_C9 :
    (∀ (e : Expr) (rest : List Tok), headIsBrace rest = false →
        parseNodeR (.expr e :: .fatArrow :: rest) = none) ∧
    (∀ ts : List Tok, parseTree ts = none → expandTokens ts = none) ∧
    (∀ (e : Expr) (rest : List Tok), headIsFatArrow rest = false →
        parseNodeR (.expr e :: rest) = some (.mk e [], rest)) := by
  refine ⟨?_, ?_, ?_⟩
  · intro e rest hb
    match rest, hb with
    | [], _ => simp [parseNodeR, parseNode]
    | .expr e2 :: r, _ => simp [parseNodeR, parseNode]
    | .comma :: r, _ => simp [parseNodeR, parseNode]
    | .fatArrow :: r, _ => simp [parseNodeR, parseNode]
  · intro ts h
    simp [expandTokens, h]
  · intro e rest hf
    match rest, hf with
    | [], _ => simp [parseNodeR, parseNode]
    | .expr e2 :: r, _ => simp [parseNodeR, parseNode]
    | .comma :: r, _ => simp [parseNodeR, parseNode]
    | .brace g :: r, _ => simp [parseNodeR, parseNode]

/-- C9, witness: `1 => ,` is a parse error, a failing top-level stream emits
nothing, and `1 ,` parses as the leaf 1 leaving the comma unconsumed. -/
theorem claim_C9_witness :
    parseNodeR [.expr (.value 1), .fatArrow, .comma] = none ∧
    expandTokens [Tok.comma] = none ∧
    parseNodeR [.expr (.value 1), .comma] = some (.mk (.value 1) [], [Tok.comma]) := by
  refine ⟨?_, ?_, ?_⟩
  · exact claim_C9.1 (.value 1) [Tok.comma] (by simp [headIsBrace])
  · exact claim_C9.2.1 [Tok.comma] (by simp [parseTree, parseIndexTree])
  · exact claim_C9.2.2 (.value 1) [Tok.comma] (by simp [headIsFatArrow])

/-- C10: in the generated block the arena expression is evaluated first and
once, then the root expression once, then each child spec's expression
exactly once as the argument of its append statement, in pre-order: the
evaluation-order listing of the expansion is exactly the arena expression,
the root expression, and the pre-order listing of the forest. -/
theorem claim_C10 (t : IndexTree) :
    evalOrder (tree t) = t.arena :: t.root_node :: preorderForest t.nodes := by
  have h0 : evalOrder (tree t) =
      t.arena :: rootInitExpr (rootDispatch t.root_node) :: appendExprs (tree t).instrs := rfl
  have h1 : appendExprs (tree t).instrs = preorderForest t.nodes := by
    rw [tree_instrs]
    exact appendExprs_emitForest t.nodes
  have h2 : rootInitExpr (rootDispatch t.root_node) = t.root_node := by
    cases t.root_node <;> simp [rootDispatch, rootInitExpr]
  rw [h0, h1, h2]

end IndextreeSpec
